import Mathlib

/-!
Verification development for the `elliptic` repository: a shallow
embedding of its prime-field arithmetic (`src/field/field.rs`,
`src/field/field_element.rs`), extended Euclid (`src/utils/xgcd.rs`),
Tonelli–Shanks (`src/utils/s_tonelli.rs`) and the Weierstrass curve
operations (`src/curves/weierstass.rs`, `src/curves/point.rs`).

Conventions of the embedding:
* `BigUint` values become `Nat`; a `Field` is represented by its
  `order` (called `p` throughout); a `FieldElement` is its `value`.
* Rust `BigUint` subtraction aborts on underflow while `Nat`
  subtraction truncates at zero; every theorem keeps its operands in
  the ranges the Rust code guarantees, where the two semantics agree.
* Rust loops become fuel-indexed structural recursions.  The fuel is
  always large enough for the iteration counts the Rust code actually
  performs (proved where a claim needs it); running out of fuel
  returns the current state, mirroring a loop that has not yet
  produced a result.
* `assert!`-style aborts (division by the additive identity,
  mismatched fields) have no return value in Rust; the embedding is
  total with `inv p 0 = 0`, and the aborting situations are kept
  outside the hypotheses of every theorem that relies on a division,
  except where a claim is precisely about such an input (see the
  `point_double` tangent-slope division).
-/

set_option maxRecDepth 8000

namespace EllipticSpec

/-- `Field::neg_mod` (src/field/field.rs): `if a == 0 { a } else { order - a }`. -/
def neg_mod (p a : Nat) : Nat := if a = 0 then a else p - a

/-- `Field::sub_mod` (src/field/field.rs): match on `a.cmp(&b)`:
greater gives `a - b`, equal gives `0`, less gives `neg_mod (b - a)`. -/
def sub_mod (p a b : Nat) : Nat :=
  if b < a then a - b else if a = b then 0 else neg_mod p (b - a)

/-- `Field::add_mod` (src/field/field.rs): `sub_mod (a, order - b)`. -/
def add_mod (p a b : Nat) : Nat := sub_mod p a (p - b)

/-- The loop of `Field::mul_mod` (src/field/field.rs): binary
double-and-conditionally-add over the integer representations.  The
Rust loop halves `b` until it reaches zero; `fuel` bounds the number of
iterations and is chosen by `mul_mod` so that it never runs out. -/
def mulGo (p : Nat) : Nat → Nat → Nat → Nat → Nat
  | 0, res, _, _ => res
  | fuel + 1, res, a, b =>
    if b = 0 then res
    else mulGo p fuel (if b % 2 = 1 then add_mod p res a else res) (add_mod p a a) (b / 2)

/-- `Field::mul_mod` (src/field/field.rs). -/
def mul_mod (p a b : Nat) : Nat := mulGo p (b + 1) 0 a b

/-- Square-and-multiply loop of `BigUint::modpow` (the external
arbitrary-precision primitive used by `FieldElement`'s power operator,
`impl BitXor`, src/field/field_element.rs). -/
def powModGo (p : Nat) : Nat → Nat → Nat → Nat → Nat
  | 0, acc, _, _ => acc
  | fuel + 1, acc, b, e =>
    if e = 0 then acc
    else powModGo p fuel (if e % 2 = 1 then acc * b % p else acc) (b * b % p) (e / 2)

/-- `BigUint::modpow`: `a ^ e mod p`, computed by square-and-multiply
(see `pow_mod_def` for the characterisation `pow_mod p a e = a ^ e % p`). -/
def pow_mod (p a e : Nat) : Nat := powModGo p (e + 1) (1 % p) (a % p) e

theorem powModGo_eq_mod {p : Nat} :
    ∀ fuel acc b e, acc % p = acc → e < fuel →
      powModGo p fuel acc b e = acc * b ^ e % p := by
  intro fuel
  induction fuel with
  | zero => intro acc b e _ h; omega
  | succ n ih =>
    intro acc b e hacc he
    rw [powModGo]
    split
    · rename_i he0
      subst he0
      rw [pow_zero, mul_one, hacc]
    · rename_i he0
      rw [ih (if e % 2 = 1 then acc * b % p else acc) (b * b % p) (e / 2)
        (by split
            · exact Nat.mod_mod_of_dvd _ dvd_rfl
            · exact hacc)
        (by omega)]
      have h1 : (b * b % p) ^ (e / 2) ≡ (b * b) ^ (e / 2) [MOD p] :=
        (Nat.mod_modEq (b * b) p).pow _
      have h2 : (if e % 2 = 1 then acc * b % p else acc) ≡ acc * b ^ (e % 2) [MOD p] := by
        split
        · rename_i hodd
          rw [hodd, pow_one]
          exact Nat.mod_modEq (acc * b) p
        · rename_i hev
          rw [show e % 2 = 0 by omega, pow_zero, mul_one]
      have h3 := h2.mul h1
      rw [show (if e % 2 = 1 then acc * b % p else acc) * (b * b % p) ^ (e / 2) % p
          = acc * b ^ (e % 2) * (b * b) ^ (e / 2) % p from h3]
      congr 1
      rw [← pow_two, ← pow_mul, mul_assoc, ← pow_add]
      congr 2
      omega

theorem pow_mod_def (p a e : Nat) : pow_mod p a e = a ^ e % p := by
  unfold pow_mod
  rw [powModGo_eq_mod (e + 1) (1 % p) (a % p) e (Nat.mod_mod_of_dvd _ dvd_rfl) (by omega)]
  have h := (Nat.mod_modEq 1 p).mul ((Nat.mod_modEq a p).pow e)
  rw [show 1 % p * (a % p) ^ e % p = 1 * a ^ e % p from h, one_mul]

/-- The loop of `u_xgcd` (src/utils/xgcd.rs).  The Bézout coefficients
`(x1, y1)` / `(x0, y0)` are updated with the quotient `q` computed in
the *previous* round (`q` starts at `0`, so the first round is a pure
shift), exactly as in the Rust code. -/
def uXgcdGo : Nat → Int → Int → Int → Int → Nat → Nat → Nat → Int × Int × Nat
  | 0, x1, y1, _, _, _, a0, _ => (x1, y1, a0)
  | fuel + 1, x1, y1, x0, y0, q, a0, a1 =>
    if a1 = 0 then (x1, y1, a0)
    else uXgcdGo fuel (x0 - (q : Int) * x1) (y0 - (q : Int) * y1) x1 y1 (a0 / a1) a1 (a0 % a1)

/-- `u_xgcd` (src/utils/xgcd.rs): extended Euclid over unsigned inputs
with signed coefficient updates.  The second remainder strictly
decreases every round, so fuel `b + 1` never runs out. -/
def u_xgcd (a b : Nat) : Int × Int × Nat := uXgcdGo (b + 1) 1 0 0 1 0 a b

/-- `Field::inv` (src/field/field.rs): the Bézout coefficient of `a`
from `u_xgcd (a, order)`, fixed up by sign into `[0, order)` —
`match a.cmp(&zero)`: greater keeps it, equal yields `0`, less takes
`neg_mod` of its negation. -/
def inv (p a : Nat) : Nat :=
  if 0 < (u_xgcd a p).1 then (u_xgcd a p).1.toNat
  else if (u_xgcd a p).1 = 0 then 0
  else neg_mod p (-(u_xgcd a p).1).toNat

/-- `impl Div for FieldElement` (src/field/field_element.rs):
`self * rhs.inverse()`.  The Rust code first asserts `rhs != 0`
(a fatal abort); the embedding is total and `inv p 0 = 0`. -/
def fdiv (p a b : Nat) : Nat := mul_mod p a (inv p b)

/-! ### Range lemmas: every field operation keeps its result below `p` -/

theorem neg_mod_lt {p : Nat} (hp : 0 < p) (a : Nat) : neg_mod p a < p := by
  unfold neg_mod; split <;> omega

theorem sub_mod_lt {p a : Nat} (hp : 0 < p) (ha : a < p) (b : Nat) : sub_mod p a b < p := by
  unfold sub_mod
  split
  · omega
  · split
    · omega
    · exact neg_mod_lt hp _

theorem add_mod_lt {p a : Nat} (hp : 0 < p) (ha : a < p) (b : Nat) : add_mod p a b < p :=
  sub_mod_lt hp ha _

theorem mulGo_lt {p : Nat} (hp : 0 < p) :
    ∀ fuel res a b, res < p → a < p → mulGo p fuel res a b < p := by
  intro fuel
  induction fuel with
  | zero => intro res a b hres _; simpa [mulGo] using hres
  | succ n ih =>
    intro res a b hres ha
    rw [mulGo]
    split
    · exact hres
    · apply ih
      · split
        · exact add_mod_lt hp hres a
        · exact hres
      · exact add_mod_lt hp ha a

theorem mul_mod_lt {p a : Nat} (hp : 0 < p) (ha : a < p) (b : Nat) : mul_mod p a b < p :=
  mulGo_lt hp (b + 1) 0 a b hp ha

theorem pow_mod_lt {p : Nat} (hp : 0 < p) (a e : Nat) : pow_mod p a e < p := by
  rw [pow_mod_def]
  exact Nat.mod_lt _ hp

/-! ### Value lemmas: the operations compute modular arithmetic -/

theorem sub_mod_eq_mod {p a b : Nat} (hp : 0 < p) (ha : a < p) (hb : b ≤ p) :
    sub_mod p a b = (a + (p - b)) % p := by
  unfold sub_mod neg_mod
  rcases Nat.lt_trichotomy b a with h | h | h
  · rw [if_pos h, show a + (p - b) = (a - b) + p by omega, Nat.add_mod_right,
      Nat.mod_eq_of_lt (by omega)]
  · rw [if_neg (by omega), if_pos (by omega), show a + (p - b) = p by omega, Nat.mod_self]
  · rw [if_neg (by omega), if_neg (by omega), if_neg (show ¬(b - a = 0) by omega),
      Nat.mod_eq_of_lt (by omega)]
    omega

theorem add_mod_eq_mod {p a b : Nat} (hp : 0 < p) (ha : a < p) (hb : b ≤ p) :
    add_mod p a b = (a + b) % p := by
  unfold add_mod
  rw [sub_mod_eq_mod hp ha (by omega)]
  congr 1
  omega

theorem mulGo_eq_mod {p : Nat} (hp : 0 < p) :
    ∀ fuel res a b, res < p → a < p → b < fuel →
      mulGo p fuel res a b = (res + a * b) % p := by
  intro fuel
  induction fuel with
  | zero => intro res a b _ _ h; omega
  | succ n ih =>
    intro res a b hres ha hb
    rw [mulGo]
    split
    · rename_i hb0
      subst hb0
      simp [Nat.mod_eq_of_lt hres]
    · rename_i hb0
      have hbpos : 0 < b := Nat.pos_of_ne_zero hb0
      rw [ih (if b % 2 = 1 then add_mod p res a else res) (add_mod p a a) (b / 2)
        (by split
            · exact add_mod_lt hp hres a
            · exact hres)
        (add_mod_lt hp ha a) (by omega)]
      by_cases hodd : b % 2 = 1
      · rw [if_pos hodd, add_mod_eq_mod hp hres (le_of_lt ha),
          add_mod_eq_mod hp ha (le_of_lt ha)]
        rw [show ((res + a) % p + (a + a) % p * (b / 2)) % p
            = ((res + a) + (a + a) * (b / 2)) % p from
          (Nat.mod_modEq (res + a) p).add ((Nat.mod_modEq (a + a) p).mul_right (b / 2))]
        congr 1
        rw [show (res + a) + (a + a) * (b / 2) = res + a * (2 * (b / 2) + 1) by ring]
        congr 2
        omega
      · rw [if_neg hodd, add_mod_eq_mod hp ha (le_of_lt ha)]
        rw [show (res + (a + a) % p * (b / 2)) % p = (res + (a + a) * (b / 2)) % p from
          (Nat.ModEq.refl res).add ((Nat.mod_modEq (a + a) p).mul_right (b / 2))]
        congr 1
        rw [show res + (a + a) * (b / 2) = res + a * (2 * (b / 2)) by ring]
        congr 2
        omega

theorem mul_mod_eq_mod {p a : Nat} (hp : 0 < p) (ha : a < p) (b : Nat) :
    mul_mod p a b = a * b % p := by
  unfold mul_mod
  rw [mulGo_eq_mod hp (b + 1) 0 a b hp ha (by omega), Nat.zero_add]

/-! ### Extended Euclid: Bézout identity, gcd, and coefficient bound

The loop invariant follows the classical continuant analysis: writing
`s0 := x1` for the coefficient of the current remainder `a0` and
`s1 := x0 - q * x1` for the (not yet materialised) coefficient of
`a1`, consecutive coefficients have opposite signs and satisfy
`natAbs s0 * a1 + natAbs s1 * a0 = B`, which bounds every coefficient
by `B`. -/

theorem natAbs_sub_of_mul_nonpos {u w : Int} (h : u * w ≤ 0) :
    (u - w).natAbs = u.natAbs + w.natAbs := by
  rcases lt_trichotomy u 0 with hu | hu | hu <;>
    rcases lt_trichotomy w 0 with hw | hw | hw <;>
      first
        | omega
        | (exfalso; nlinarith)

theorem uXgcdGo_spec (A B : Nat) :
    ∀ a1 : Nat, ∀ (fuel : Nat) (x1 y1 x0 y0 : Int) (q a0 : Nat),
      a1 < fuel →
      (A : Int) * x1 + (B : Int) * y1 = (a0 : Int) →
      (A : Int) * (x0 - (q : Int) * x1) + (B : Int) * (y0 - (q : Int) * y1) = (a1 : Int) →
      x1 * (x0 - (q : Int) * x1) ≤ 0 →
      x1.natAbs * a1 + (x0 - (q : Int) * x1).natAbs * a0 = B →
      x1.natAbs ≤ B →
      (x0 - (q : Int) * x1).natAbs ≤ B →
      Nat.gcd a0 a1 = Nat.gcd A B →
      ((A : Int) * (uXgcdGo fuel x1 y1 x0 y0 q a0 a1).1
          + (B : Int) * (uXgcdGo fuel x1 y1 x0 y0 q a0 a1).2.1
          = ((uXgcdGo fuel x1 y1 x0 y0 q a0 a1).2.2 : Int))
        ∧ (uXgcdGo fuel x1 y1 x0 y0 q a0 a1).2.2 = Nat.gcd A B
        ∧ (uXgcdGo fuel x1 y1 x0 y0 q a0 a1).1.natAbs ≤ B := by
  intro a1
  induction a1 using Nat.strong_induction_on with
  | _ a1 IH =>
    intro fuel x1 y1 x0 y0 q a0 hfuel h1 h2 h3 h4 h5 h6 hgcd
    match fuel with
    | 0 => omega
    | fuel + 1 =>
      rw [uXgcdGo]
      by_cases ha1 : a1 = 0
      · rw [if_pos ha1]
        subst ha1
        refine ⟨h1, ?_, h5⟩
        simpa using hgcd
      · rw [if_neg ha1]
        have ha1pos : 0 < a1 := Nat.pos_of_ne_zero ha1
        have hmodlt : a0 % a1 < a1 := Nat.mod_lt _ ha1pos
        set x2 := x0 - (q : Int) * x1 with hx2
        set y2 := y0 - (q : Int) * y1 with hy2
        set q' := a0 / a1 with hq'
        -- the Nat division/mod identity, in both worlds
        have hdm : a1 * q' + a0 % a1 = a0 := Nat.div_add_mod a0 a1
        have hdmi : (a1 : Int) * (q' : Int) + ((a0 % a1 : Nat) : Int) = (a0 : Int) := by
          exact_mod_cast congrArg (fun n : Nat => (n : Int)) hdm
        have hq'nn : (0 : Int) ≤ (q' : Int) := Int.natCast_nonneg _
        have hq'sq : (0 : Int) ≤ (q' : Int) * (x2 * x2) := mul_nonneg hq'nn (mul_self_nonneg x2)
        -- sign of the next coefficient pair
        have hsign : x2 * (x1 - (q' : Int) * x2) ≤ 0 := by nlinarith [h3, hq'sq]
        -- natAbs of the next coefficient
        have habs : (x1 - (q' : Int) * x2).natAbs = x1.natAbs + q' * x2.natAbs := by
          have hqx : x1 * ((q' : Int) * x2) ≤ 0 := by
            calc x1 * ((q' : Int) * x2) = (q' : Int) * (x1 * x2) := by ring
              _ ≤ 0 := mul_nonpos_iff.mpr (Or.inl ⟨hq'nn, h3⟩)
          rw [natAbs_sub_of_mul_nonpos hqx, Int.natAbs_mul, Int.natAbs_ofNat]
        have hq'le : q' ≤ a0 := Nat.div_le_self a0 a1
        apply IH (a0 % a1) hmodlt fuel x2 y2 x1 y1 q' a1 (by omega)
        · exact h2
        · -- Bézout identity for the next remainder
          have : (A : Int) * (x1 - (q' : Int) * x2) + (B : Int) * (y1 - (q' : Int) * y2)
              = ((A : Int) * x1 + (B : Int) * y1) - (q' : Int) * ((A : Int) * x2 + (B : Int) * y2) := by
            ring
          rw [this, h1, h2]
          linarith [hdmi]
        · exact hsign
        · -- the continuant identity for the next state
          rw [habs]
          have : x2.natAbs * (a0 % a1) + (x1.natAbs + q' * x2.natAbs) * a1
              = x1.natAbs * a1 + x2.natAbs * (a0 % a1 + a1 * q') := by ring
          rw [this, show a0 % a1 + a1 * q' = a0 by omega]
          exact h4
        · exact h6
        · -- bound on the next coefficient
          rw [habs]
          calc x1.natAbs + q' * x2.natAbs
              ≤ x1.natAbs * a1 + a0 * x2.natAbs := by
                have e1 : x1.natAbs ≤ x1.natAbs * a1 := Nat.le_mul_of_pos_right _ ha1pos
                have e2 : q' * x2.natAbs ≤ a0 * x2.natAbs :=
                  Nat.mul_le_mul_right _ hq'le
                omega
            _ = B := by rw [Nat.mul_comm a0]; exact h4
        · -- gcd is preserved
          rw [Nat.gcd_comm a1, ← Nat.gcd_rec, Nat.gcd_comm]
          exact hgcd

theorem u_xgcd_spec (A B : Nat) (hB : 1 ≤ B) :
    (A : Int) * (u_xgcd A B).1 + (B : Int) * (u_xgcd A B).2.1 = ((u_xgcd A B).2.2 : Int)
      ∧ (u_xgcd A B).2.2 = Nat.gcd A B
      ∧ (u_xgcd A B).1.natAbs ≤ B := by
  apply uXgcdGo_spec A B B (B + 1) 1 0 0 1 0 A (by omega)
  · simp
  · simp
  · simp
  · simp [hB]
  · simpa using hB
  · simp
  · rfl

/-! ### Range and correctness of `Field::inv` -/

theorem inv_lt {p : Nat} (hp : 0 < p) {a : Nat} (ha : a < p) : inv p a < p := by
  by_cases ha0 : a = 0
  · subst ha0
    obtain ⟨p', rfl⟩ : ∃ p', p = p' + 1 := ⟨p - 1, by omega⟩
    simp [inv, u_xgcd, uXgcdGo]
  · have ha1 : 1 ≤ a := Nat.pos_of_ne_zero ha0
    obtain ⟨hbez, hg, hbound⟩ := u_xgcd_spec a p hp
    have hglea : (u_xgcd a p).2.2 ≤ a := by
      rw [hg]; exact Nat.le_of_dvd ha1 (Nat.gcd_dvd_left a p)
    have hgpos : 0 < (u_xgcd a p).2.2 := by
      rw [hg]; exact Nat.gcd_pos_of_pos_left _ ha1
    have hxlt : (u_xgcd a p).1.natAbs < p := by
      rcases Nat.lt_or_ge (u_xgcd a p).1.natAbs p with h | h
      · exact h
      · exfalso
        have hxeq : (u_xgcd a p).1.natAbs = p := le_antisymm hbound h
        have hdvd : (p : Int) ∣ ((u_xgcd a p).2.2 : Int) := by
          rcases Int.natAbs_eq (u_xgcd a p).1 with hh | hh
          · refine ⟨(a : Int) + (u_xgcd a p).2.1, ?_⟩
            rw [← hbez, hh, hxeq]; ring
          · refine ⟨(u_xgcd a p).2.1 - (a : Int), ?_⟩
            rw [← hbez, hh, hxeq]; ring
        have : p ∣ (u_xgcd a p).2.2 := Int.ofNat_dvd.mp hdvd
        have := Nat.le_of_dvd hgpos this
        omega
    unfold inv
    split_ifs with h1 h2
    · omega
    · omega
    · exact neg_mod_lt hp _

theorem inv_mul_modeq {p b : Nat} (hp : p.Prime) (hb0 : 0 < b) (hbp : b < p) :
    inv p b * b % p = 1 % p := by
  have hppos : 0 < p := hp.pos
  obtain ⟨hbez, hg, hbound⟩ := u_xgcd_spec b p hppos
  have hgcd1 : Nat.gcd b p = 1 := by
    have hnd : ¬p ∣ b := Nat.not_dvd_of_pos_of_lt hb0 hbp
    exact Nat.coprime_comm.mp ((Nat.Prime.coprime_iff_not_dvd hp).mpr hnd)
  have hbez1 : (b : Int) * (u_xgcd b p).1 + (p : Int) * (u_xgcd b p).2.1 = 1 := by
    rw [hbez, hg, hgcd1]; rfl
  have hinv : Int.ModEq (p : Int) ((inv p b : Nat) : Int) ((u_xgcd b p).1) := by
    show ((inv p b : Nat) : Int) % (p : Int) = (u_xgcd b p).1 % (p : Int)
    unfold inv
    split_ifs with h1 h2
    · rw [Int.toNat_of_nonneg h1.le]
    · rw [h2]; rfl
    · have hneg : (u_xgcd b p).1 < 0 := by omega
      have hv : (-(u_xgcd b p).1).toNat = (u_xgcd b p).1.natAbs := by omega
      rw [hv]
      unfold neg_mod
      rw [if_neg (show ¬(u_xgcd b p).1.natAbs = 0 by omega)]
      have hcast : ((p - (u_xgcd b p).1.natAbs : Nat) : Int)
          = (u_xgcd b p).1 + (p : Int) * 1 := by
        have : (u_xgcd b p).1.natAbs ≤ p := hbound
        omega
      rw [hcast]
      exact Int.add_mul_emod_self_left _ _ _
  have hx1 : Int.ModEq (p : Int) ((u_xgcd b p).1 * (b : Int)) 1 := by
    show (u_xgcd b p).1 * (b : Int) % (p : Int) = 1 % (p : Int)
    rw [show (u_xgcd b p).1 * (b : Int) = 1 + (p : Int) * -(u_xgcd b p).2.1 by
      linarith [hbez1]]
    exact Int.add_mul_emod_self_left _ _ _
  have hfin : ((inv p b * b : Nat) : Int) % (p : Int) = ((1 : Nat) : Int) % (p : Int) := by
    push_cast
    exact (hinv.mul_right ((b : Nat) : Int)).trans hx1
  exact_mod_cast hfin

/-! ### Claims C1 and C2 -/

/-- C1.  For every field of odd prime order `p` and all field elements
`a`, `b` with `b ≠ 0`: `(a / b) * b == a` and `a + b - b == a`, where
`/`, `*`, `+`, `-` are the `FieldElement` operators (division is
multiplication by `Field::inv`). -/
theorem C1_div_mul_add_sub_cancel (p a b : Nat) (hp : p.Prime) (hodd : p % 2 = 1)
    (ha : a < p) (hb : b < p) (hb0 : b ≠ 0) :
    mul_mod p (fdiv p a b) b = a ∧ sub_mod p (add_mod p a b) b = a := by
  have hppos : 0 < p := hp.pos
  constructor
  · unfold fdiv
    rw [mul_mod_eq_mod hppos ha (inv p b)]
    rw [mul_mod_eq_mod hppos (Nat.mod_lt _ hppos) b]
    rw [Nat.mod_mul_mod, mul_assoc]
    have hmul : a * (inv p b * b) % p = a * 1 % p :=
      (Nat.ModEq.refl a).mul (inv_mul_modeq hp (Nat.pos_of_ne_zero hb0) hb)
    rw [hmul, mul_one, Nat.mod_eq_of_lt ha]
  · rw [add_mod_eq_mod hppos ha (le_of_lt hb),
      sub_mod_eq_mod hppos (Nat.mod_lt _ hppos) (le_of_lt hb)]
    rcases Nat.lt_or_ge (a + b) p with h | h
    · rw [Nat.mod_eq_of_lt h, show a + b + (p - b) = a + p by omega,
        Nat.add_mod_right, Nat.mod_eq_of_lt ha]
    · have hm : (a + b) % p = a + b - p := by
        rw [Nat.mod_eq_sub_mod h, Nat.mod_eq_of_lt (by omega)]
      rw [hm, show a + b - p + (p - b) = a by omega, Nat.mod_eq_of_lt ha]

/-- C1, witness at `p = 13`, `a = 9`, `b = 5`. -/
theorem C1_div_mul_add_sub_cancel_witness :
    mul_mod 13 (fdiv 13 9 5) 5 = 9 ∧ sub_mod 13 (add_mod 13 9 5) 5 = 9 :=
  C1_div_mul_add_sub_cancel 13 9 5 (by norm_num) (by decide) (by decide) (by decide) (by decide)

/-- C2.  If both operand values lie in `[0, p)` then the value produced
by every `FieldElement` arithmetic operation — add, sub, mul, neg, pow,
inverse, and (for a non-zero divisor) divide — again lies in `[0, p)`.
(`0 ≤ value` is inherent in the `Nat`/`BigUint` representation.) -/
theorem C2_ops_preserve_range (p a b e : Nat) (hp : 0 < p) (ha : a < p) (hb : b < p) :
    add_mod p a b < p ∧ sub_mod p a b < p ∧ mul_mod p a b < p ∧ neg_mod p a < p ∧
      pow_mod p a e < p ∧ inv p a < p ∧ (b ≠ 0 → fdiv p a b < p) :=
  ⟨add_mod_lt hp ha b, sub_mod_lt hp ha b, mul_mod_lt hp ha b, neg_mod_lt hp a,
    pow_mod_lt hp a e, inv_lt hp ha, fun _ => mul_mod_lt hp ha (inv p b)⟩

/-- C2, witness at `p = 7`, `a = 3`, `b = 5`, `e = 4`. -/
theorem C2_ops_preserve_range_witness :
    add_mod 7 3 5 < 7 ∧ sub_mod 7 3 5 < 7 ∧ mul_mod 7 3 5 < 7 ∧ neg_mod 7 3 < 7 ∧
      pow_mod 7 3 4 < 7 ∧ inv 7 3 < 7 ∧ (5 ≠ 0 → fdiv 7 3 5 < 7) :=
  C2_ops_preserve_range 7 3 5 4 (by decide) (by decide) (by decide)

/-! ### Tonelli-Shanks (src/utils/s_tonelli.rs) -/

/-- The `while (q & 1) == 0` halving loop of `tonelli_shanks`
(src/utils/s_tonelli.rs): counts `ss` and strips factors of two off
`q`.  Fuel `q` suffices since `q` at least halves every round. -/
def oddifyGo : Nat → Nat → Nat → Nat × Nat
  | 0, ss, q => (ss, q)
  | fuel + 1, ss, q => if q % 2 = 0 then oddifyGo fuel (ss + 1) (q / 2) else (ss, q)

/-- The non-residue scan of `tonelli_shanks`: starting from the field
element `2`, step by `z + one` (a `FieldElement` addition) until
`z ^ ((p-1)/2) == -one`, i.e. until the power's value is `p - 1`. -/
def zScanGo (p : Nat) : Nat → Nat → Nat
  | 0, z => z
  | fuel + 1, z =>
    if pow_mod p z ((p - 1) / 2) = p - 1 then z else zScanGo p fuel (add_mod p z 1)

/-- The inner `while zz != one && i < (m - 1)` squaring loop of
`tonelli_shanks`' main loop; returns the exit value of `i`. -/
def tsFindIGo (p m : Nat) : Nat → Nat → Nat → Nat
  | 0, _, i => i
  | fuel + 1, zz, i =>
    if zz ≠ 1 ∧ i < m - 1 then tsFindIGo p m fuel (mul_mod p zz zz) (i + 1) else i

/-- The `while e > 0 { b = b * b; e -= 1 }` loop of `tonelli_shanks`:
`e`-fold field squaring. -/
def sqIter (p : Nat) : Nat → Nat → Nat
  | 0, b => b
  | e + 1, b => sqIter p e (mul_mod p b b)

/-- The main `loop` of `tonelli_shanks`: returns `(r, -r)` once `t`
reaches `one`, otherwise finds the least `i` with `t^(2^i) = 1`,
squares `c` up `m - i - 1` times into `b`, and updates
`c = b²`, `t = t·c`, `r = r·b`, `m = i`.  `m` strictly decreases, so
fuel `ss + 1` (chosen by `tonelli_shanks`) never runs out on the
inputs the algorithm is called with. -/
def tsLoop (p : Nat) : Nat → Nat → Nat → Nat → Nat → Option (Nat × Nat)
  | 0, _, _, _, _ => none
  | fuel + 1, c, r, t, m =>
    if t = 1 then some (r, neg_mod p r)
    else
      let i := tsFindIGo p m m t 0
      let b := sqIter p (m - i - 1) c
      let c2 := mul_mod p b b
      tsLoop p fuel c2 (mul_mod p r b) (mul_mod p t c2) i

/-- `tonelli_shanks` (src/utils/s_tonelli.rs).  Returns `none` when
Euler's criterion fails, the closed form `x^((p+1)/4)` when
`p - 1 = q · 2^1`, and otherwise runs the Tonelli–Shanks main loop
with `c = z^q`, `r = x^((q+1)/2)`, `t = x^q`, `m = ss`. -/
def tonelli_shanks (p x : Nat) : Option (Nat × Nat) :=
  if pow_mod p x ((p - 1) / 2) ≠ 1 then none
  else
    let sq := oddifyGo (p - 1) 0 (p - 1)
    if sq.1 = 1 then
      let r1 := pow_mod p x ((p + 1) / 4)
      some (r1, neg_mod p r1)
    else
      let z := zScanGo p p 2
      tsLoop p (sq.1 + 1) (pow_mod p z sq.2) (pow_mod p x ((sq.2 + 1) / 2))
        (pow_mod p x sq.2) sq.1


/-! ### Tonelli-Shanks correctness lemmas -/

theorem pow_mod_pow (p a j k : Nat) : (a ^ j % p) ^ k % p = a ^ (j * k) % p := by
  conv_lhs => rw [← Nat.pow_mod]
  rw [← pow_mul]

theorem pow_mod_mul_pow_mod (p a j k : Nat) :
    (a ^ j % p) * (a ^ k % p) % p = a ^ (j + k) % p := by
  conv_lhs => rw [← Nat.mul_mod]
  rw [← pow_add]

theorem oddifyGo_spec :
    ∀ fuel ss q, 0 < q → q ≤ fuel →
      (oddifyGo fuel ss q).2 % 2 = 1 ∧
        (oddifyGo fuel ss q).2 * 2 ^ (oddifyGo fuel ss q).1 = q * 2 ^ ss ∧
        ss ≤ (oddifyGo fuel ss q).1 ∧ 0 < (oddifyGo fuel ss q).2 := by
  intro fuel
  induction fuel with
  | zero => intro ss q hq hle; omega
  | succ n ih =>
    intro ss q hq hle
    rw [oddifyGo]
    split
    · rename_i hev
      have h2 : 0 < q / 2 := by omega
      have h3 : q / 2 ≤ n := by omega
      obtain ⟨o1, o2, o3, o4⟩ := ih (ss + 1) (q / 2) h2 h3
      refine ⟨o1, ?_, by omega, o4⟩
      rw [o2]
      have h4 : q / 2 * 2 = q := by omega
      calc q / 2 * 2 ^ (ss + 1) = q / 2 * 2 * 2 ^ ss := by ring
        _ = q * 2 ^ ss := by rw [h4]
    · rename_i hev
      exact ⟨by omega, rfl, le_refl _, hq⟩

theorem sqIter_spec (p : Nat) (hp : 0 < p) :
    ∀ e b, b < p → sqIter p e b = b ^ (2 ^ e) % p := by
  intro e
  induction e with
  | zero =>
    intro b hb
    simp [sqIter, Nat.mod_eq_of_lt hb]
  | succ n ih =>
    intro b hb
    rw [sqIter, ih (mul_mod p b b) (mul_mod_lt hp hb b),
      mul_mod_eq_mod hp hb b, ← pow_two, pow_mod_pow, ← pow_succ']

theorem zScanGo_spec (p : Nat) (hp : 0 < p) :
    ∀ fuel z, z < p →
      (∃ w, z ≤ w ∧ w < p ∧ pow_mod p w ((p - 1) / 2) = p - 1) →
      p - z ≤ fuel →
      zScanGo p fuel z < p ∧ pow_mod p (zScanGo p fuel z) ((p - 1) / 2) = p - 1 := by
  intro fuel
  induction fuel with
  | zero => intro z hz _ hle; omega
  | succ n ih =>
    intro z hz hw hle
    rw [zScanGo]
    split
    · exact ⟨hz, by assumption⟩
    · rename_i hno
      obtain ⟨w, hw1, hw2, hw3⟩ := hw
      have hzw : z ≠ w := fun h => hno (h ▸ hw3)
      have hz1 : z + 1 < p := by omega
      have hstep : add_mod p z 1 = z + 1 := by
        rw [add_mod_eq_mod hp hz (by omega), Nat.mod_eq_of_lt hz1]
      rw [hstep]
      exact ih (z + 1) hz1 ⟨w, by omega, hw2, hw3⟩ (by omega)

theorem natCast_pred_eq_neg_one (p : Nat) (hp1 : 1 ≤ p) :
    ((p - 1 : Nat) : ZMod p) = -1 := by
  have h : ((p - 1 : Nat) : ZMod p) = ((p : Nat) : ZMod p) - ((1 : Nat) : ZMod p) := by
    rw [← Nat.cast_sub hp1]
  rw [h, ZMod.natCast_self]
  push_cast
  ring

theorem sqrt_one_eq_pred {p v : Nat} (hp : p.Prime) (hv : v < p) (hv1 : v ≠ 1)
    (hsq : v * v % p = 1) : v = p - 1 := by
  haveI := Fact.mk hp
  have h1p : 1 < p := hp.one_lt
  haveI := Fact.mk h1p
  have hcast : (v : ZMod p) * (v : ZMod p) = 1 := by
    have hme : (v * v) ≡ 1 [MOD p] := by
      show v * v % p = 1 % p
      rw [hsq, Nat.mod_eq_of_lt h1p]
    have := (ZMod.natCast_eq_natCast_iff (v * v) 1 p).mpr hme
    push_cast at this
    exact this
  rcases mul_self_eq_one_iff.mp hcast with h | h
  · exfalso
    apply hv1
    have := congrArg ZMod.val h
    rwa [ZMod.val_cast_of_lt hv, ZMod.val_one] at this
  · have h2 : (v : ZMod p) = ((p - 1 : Nat) : ZMod p) := by
      rw [h, natCast_pred_eq_neg_one p (by omega)]
    have := congrArg ZMod.val h2
    rwa [ZMod.val_cast_of_lt hv, ZMod.val_cast_of_lt (by omega)] at this

theorem exists_nonresidue {p : Nat} (hp : p.Prime) (hodd : p % 2 = 1) :
    ∃ w, 2 ≤ w ∧ w < p ∧ pow_mod p w ((p - 1) / 2) = p - 1 := by
  haveI := Fact.mk hp
  have h2 : p ≠ 2 := by omega
  have h3 : 3 ≤ p := by
    have := hp.two_le
    omega
  have hchar : ringChar (ZMod p) ≠ 2 := by
    rw [ZMod.ringChar_zmod_n]
    exact h2
  obtain ⟨a, ha⟩ := FiniteField.exists_nonsquare hchar
  have ha0 : a ≠ 0 := fun h => ha ⟨0, by rw [h]; ring⟩
  have ha1 : a ≠ 1 := fun h => ha ⟨1, by rw [h]; ring⟩
  have heuler : a ^ (p / 2) = -1 := by
    rcases ZMod.pow_div_two_eq_neg_one_or_one p ha0 with h | h
    · exact absurd ((ZMod.euler_criterion p ha0).mpr h) ha
    · exact h
  have hval : (a.val : ZMod p) = a := ZMod.natCast_rightInverse a
  refine ⟨a.val, ?_, a.val_lt, ?_⟩
  · have h0 : a.val ≠ 0 := fun h => ha0 (by rw [← hval, h]; push_cast; ring)
    have h1 : a.val ≠ 1 := fun h => ha1 (by rw [← hval, h]; push_cast; ring)
    omega
  · rw [pow_mod_def]
    have hexp : (p - 1) / 2 = p / 2 := by omega
    rw [hexp]
    have hv : a.val ^ (p / 2) % p = ((a.val ^ (p / 2) : Nat) : ZMod p).val := by
      rw [ZMod.val_natCast]
    rw [hv]
    have : ((a.val ^ (p / 2) : Nat) : ZMod p) = a ^ (p / 2) := by
      push_cast
      rw [hval]
    rw [this, heuler]
    have := congrArg ZMod.val (natCast_pred_eq_neg_one p (by omega))
    rw [ZMod.val_cast_of_lt (by omega)] at this
    omega
theorem pred_mul_pred_mod {p : Nat} (hp2 : 2 ≤ p) : (p - 1) * (p - 1) % p = 1 := by
  obtain ⟨k, rfl⟩ : ∃ k, p = k + 2 := ⟨p - 2, by omega⟩
  have h : (k + 2 - 1) * (k + 2 - 1) = (k + 2) * k + 1 := by
    have h1 : k + 2 - 1 = k + 1 := by omega
    rw [h1]; ring
  rw [h, Nat.mul_add_mod, Nat.mod_eq_of_lt (by omega)]

theorem tsFindIGo_go (p t m : Nat) (hp1 : 1 < p)
    (hinv : t ^ 2 ^ (m - 1) % p = 1) :
    ∀ fuel i, 1 ≤ i → i ≤ m - 1 → (m - 1) - i ≤ fuel →
      t ^ 2 ^ (i - 1) % p ≠ 1 →
      1 ≤ tsFindIGo p m fuel (t ^ 2 ^ i % p) i ∧
        tsFindIGo p m fuel (t ^ 2 ^ i % p) i ≤ m - 1 ∧
        t ^ 2 ^ tsFindIGo p m fuel (t ^ 2 ^ i % p) i % p = 1 ∧
        t ^ 2 ^ (tsFindIGo p m fuel (t ^ 2 ^ i % p) i - 1) % p ≠ 1 := by
  intro fuel
  induction fuel with
  | zero =>
    intro i hi1 him hfu hpred
    have hie : i = m - 1 := by omega
    rw [tsFindIGo]
    exact ⟨hi1, him, by rw [hie]; exact hinv, hpred⟩
  | succ n ih =>
    intro i hi1 him hfu hpred
    rw [tsFindIGo]
    by_cases hzz : t ^ 2 ^ i % p = 1
    · rw [if_neg (by simp [hzz])]
      exact ⟨hi1, him, hzz, hpred⟩
    · by_cases hi : i < m - 1
      · rw [if_pos ⟨hzz, hi⟩]
        have he : 2 ^ i + 2 ^ i = 2 ^ (i + 1) := by rw [pow_succ]; omega
        have hsq : mul_mod p (t ^ 2 ^ i % p) (t ^ 2 ^ i % p) = t ^ 2 ^ (i + 1) % p := by
          rw [mul_mod_eq_mod (by omega) (Nat.mod_lt _ (by omega)) _,
            pow_mod_mul_pow_mod, he]
        rw [hsq]
        exact ih (i + 1) (by omega) (by omega) (by omega) (by simpa using hzz)
      · exact absurd (by rw [show i = m - 1 by omega]; exact hinv) hzz

theorem tsFindI_spec (p t m : Nat) (hp1 : 1 < p) (ht : t < p) (ht1 : t ≠ 1) (hm : 2 ≤ m)
    (hinv : t ^ 2 ^ (m - 1) % p = 1) :
    1 ≤ tsFindIGo p m m t 0 ∧ tsFindIGo p m m t 0 ≤ m - 1 ∧
      t ^ 2 ^ tsFindIGo p m m t 0 % p = 1 ∧
      t ^ 2 ^ (tsFindIGo p m m t 0 - 1) % p ≠ 1 := by
  obtain ⟨k, hk⟩ : ∃ k, m = k + 2 := ⟨m - 2, by omega⟩
  rw [hk] at hinv ⊢
  rw [tsFindIGo, if_pos (by refine ⟨ht1, by omega⟩)]
  have hsq : mul_mod p t t = t ^ 2 ^ 1 % p := by
    rw [mul_mod_eq_mod (by omega) ht t, ← pow_two]
    norm_num
  rw [hsq]
  exact tsFindIGo_go p t (k + 2) hp1 hinv (k + 1) 1 (by omega) (by omega) (by omega)
    (by simpa [Nat.mod_eq_of_lt ht] using ht1)

theorem tsLoop_spec {p : Nat} (hp : p.Prime) {x : Nat} (hx : x < p) :
    ∀ m, ∀ fuel c r t, m ≤ fuel → 1 ≤ m → c < p → r < p → t < p →
      r * r % p = t * x % p →
      t ^ 2 ^ (m - 1) % p = 1 →
      c ^ 2 ^ (m - 1) % p = p - 1 →
      ∃ r2, tsLoop p fuel c r t m = some (r2, neg_mod p r2) ∧ r2 < p ∧ r2 * r2 % p = x := by
  have hp2 : 2 ≤ p := hp.two_le
  intro m
  induction m using Nat.strong_induction_on with
  | _ m IH =>
    intro fuel c r t hfuel hm1 hc hr ht hrt htinv hcinv
    obtain ⟨fuel', rfl⟩ : ∃ f, fuel = f + 1 := ⟨fuel - 1, by omega⟩
    by_cases ht1 : t = 1
    · rw [tsLoop, if_pos ht1]
      refine ⟨r, rfl, hr, ?_⟩
      rw [hrt, ht1, one_mul, Nat.mod_eq_of_lt hx]
    · have hm2 : 2 ≤ m := by
        rcases Nat.lt_or_ge m 2 with h | h
        · exfalso
          have hm1' : m = 1 := by omega
          rw [hm1'] at htinv
          have h2 : t % p = 1 := by simpa using htinv
          rw [Nat.mod_eq_of_lt ht] at h2
          exact absurd h2 ht1
        · exact h
      obtain ⟨hi1, him, hieq, hipred⟩ := tsFindI_spec p t m (by omega) ht ht1 hm2 htinv
      set i := tsFindIGo p m m t 0 with hidef
      have hmi1 : m - i = (m - i - 1) + 1 := by omega
      -- the value t ^ 2^(i-1) mod p is a square root of 1 other than 1
      have hv : t ^ 2 ^ (i - 1) % p = p - 1 := by
        apply sqrt_one_eq_pred hp (Nat.mod_lt _ (by omega)) hipred
        rw [pow_mod_mul_pow_mod]
        have he : 2 ^ (i - 1) + 2 ^ (i - 1) = 2 ^ i := by
          have h1 : i - 1 + 1 = i := by omega
          calc 2 ^ (i - 1) + 2 ^ (i - 1) = 2 ^ (i - 1) * 2 := by omega
            _ = 2 ^ (i - 1 + 1) := (pow_succ 2 _).symm
            _ = 2 ^ i := by rw [h1]
        rw [he]
        exact hieq
      have hb : sqIter p (m - i - 1) c = c ^ 2 ^ (m - i - 1) % p :=
        sqIter_spec p (by omega) _ c hc
      set b := sqIter p (m - i - 1) c with hbdef
      have hblt : b < p := by rw [hb]; exact Nat.mod_lt _ (by omega)
      set c2 := mul_mod p b b with hc2def
      have hc2v : c2 = b * b % p := mul_mod_eq_mod (by omega) hblt b
      have hc2 : c2 = c ^ 2 ^ (m - i) % p := by
        rw [hc2v, hb, pow_mod_mul_pow_mod]
        have he : 2 ^ (m - i - 1) + 2 ^ (m - i - 1) = 2 ^ (m - i) := by
          have h1 : m - i - 1 + 1 = m - i := by omega
          calc 2 ^ (m - i - 1) + 2 ^ (m - i - 1) = 2 ^ (m - i - 1) * 2 := by omega
            _ = 2 ^ (m - i - 1 + 1) := (pow_succ 2 _).symm
            _ = 2 ^ (m - i) := by rw [h1]
        rw [he]
      have hc2lt : c2 < p := mul_mod_lt (by omega) hblt b
      have hr2lt : mul_mod p r b < p := mul_mod_lt (by omega) hr b
      have ht2lt : mul_mod p t c2 < p := mul_mod_lt (by omega) ht c2
      -- r'^2 ≡ t' * x
      have hrt' : mul_mod p r b * mul_mod p r b % p = mul_mod p t c2 * x % p := by
        rw [mul_mod_eq_mod (by omega) hr b, mul_mod_eq_mod (by omega) ht c2,
          ← Nat.mul_mod, Nat.mod_mul_mod]
        have h1 : (r * b) * (r * b) ≡ (t * x) * (b * b) [MOD p] := by
          calc (r * b) * (r * b) = (r * r) * (b * b) := by ring
            _ ≡ (t * x) * (b * b) [MOD p] := Nat.ModEq.mul_right _ hrt
        have hc2m : c2 ≡ b * b [MOD p] := hc2v ▸ Nat.mod_modEq (b * b) p
        have h2 : (t * c2) * x ≡ (t * x) * (b * b) [MOD p] := by
          calc (t * c2) * x ≡ (t * (b * b)) * x [MOD p] :=
                Nat.ModEq.mul_right x ((Nat.ModEq.refl t).mul hc2m)
            _ = (t * x) * (b * b) := by ring
        exact h1.trans h2.symm
      -- c2 ^ 2^(i-1) ≡ -1
      have hcinv2 : c2 ^ 2 ^ (i - 1) % p = p - 1 := by
        rw [hc2, pow_mod_pow]
        have hee : 2 ^ (m - i) * 2 ^ (i - 1) = 2 ^ (m - 1) := by
          rw [← pow_add]
          congr 1
          omega
        rw [hee]
        exact hcinv
      -- t' ^ 2^(i-1) ≡ 1
      have htinv2 : mul_mod p t c2 ^ 2 ^ (i - 1) % p = 1 := by
        rw [mul_mod_eq_mod (by omega) ht c2, ← Nat.pow_mod, mul_pow]
        have ht2 : t ^ 2 ^ (i - 1) ≡ p - 1 [MOD p] := by
          show t ^ 2 ^ (i - 1) % p = (p - 1) % p
          rw [hv, Nat.mod_eq_of_lt (by omega)]
        have hcc : c2 ^ 2 ^ (i - 1) ≡ p - 1 [MOD p] := by
          show c2 ^ 2 ^ (i - 1) % p = (p - 1) % p
          rw [hcinv2, Nat.mod_eq_of_lt (by omega)]
        have hmm := ht2.mul hcc
        rw [show t ^ 2 ^ (i - 1) * c2 ^ 2 ^ (i - 1) % p = (p - 1) * (p - 1) % p from hmm]
        exact pred_mul_pred_mod hp2
      have happ := IH i (by omega) fuel' c2 (mul_mod p r b) (mul_mod p t c2) (by omega) hi1
        hc2lt hr2lt ht2lt hrt' htinv2 hcinv2
      rw [tsLoop, if_neg ht1]
      exact happ
theorem tonelli_shanks_eq (p x : Nat) (h : ¬pow_mod p x ((p - 1) / 2) ≠ 1) :
    tonelli_shanks p x =
      if (oddifyGo (p - 1) 0 (p - 1)).1 = 1 then
        some (pow_mod p x ((p + 1) / 4), neg_mod p (pow_mod p x ((p + 1) / 4)))
      else
        tsLoop p ((oddifyGo (p - 1) 0 (p - 1)).1 + 1)
          (pow_mod p (zScanGo p p 2) (oddifyGo (p - 1) 0 (p - 1)).2)
          (pow_mod p x (((oddifyGo (p - 1) 0 (p - 1)).2 + 1) / 2))
          (pow_mod p x (oddifyGo (p - 1) 0 (p - 1)).2)
          (oddifyGo (p - 1) 0 (p - 1)).1 := by
  rw [tonelli_shanks, if_neg h]

/-- C3.  Over an odd prime modulus `p`, `tonelli_shanks` returns `none`
exactly when Euler's criterion `x^((p-1)/2) ≡ 1 (mod p)` fails, and
otherwise `some (r, -r)` with `r * r ≡ x (mod p)`; in particular for
modulus 13 input 10 the roots are `(7, 6)`, for 101 input 56 they are
`(37, 64)`, and for 10009 input 1030 they are `(1632, 8377)`. -/
theorem C3_tonelli_shanks_correct (p x : Nat) (hp : p.Prime) (hodd : p % 2 = 1)
    (hx : x < p) :
    ((pow_mod p x ((p - 1) / 2) ≠ 1 → tonelli_shanks p x = none) ∧
      (pow_mod p x ((p - 1) / 2) = 1 →
        ∃ r, tonelli_shanks p x = some (r, neg_mod p r) ∧ r < p ∧ r * r % p = x)) ∧
    tonelli_shanks 13 10 = some (7, 6) ∧
    tonelli_shanks 101 56 = some (37, 64) ∧
    tonelli_shanks 10009 1030 = some (1632, 8377) := by
  refine ⟨⟨?_, ?_⟩, by decide, by decide, by decide⟩
  · intro h
    rw [tonelli_shanks, if_pos h]
  · intro heuler
    have hp2 : 2 ≤ p := hp.two_le
    have hp3 : 3 ≤ p := by omega
    rw [tonelli_shanks_eq p x (by simp [heuler])]
    obtain ⟨ho1, ho2, _, ho4⟩ := oddifyGo_spec (p - 1) 0 (p - 1) (by omega) (le_refl _)
    simp only [pow_zero, mul_one] at ho2
    set ss := (oddifyGo (p - 1) 0 (p - 1)).1 with hssdef
    set q := (oddifyGo (p - 1) 0 (p - 1)).2 with hqdef
    rw [pow_mod_def] at heuler
    have hss1 : 1 ≤ ss := by
      by_cases h : ss = 0
      · exfalso
        rw [h] at ho2
        simp at ho2
        omega
      · omega
    have hx0 : x ≠ 0 := by
      intro h0
      rw [h0, zero_pow (show (p - 1) / 2 ≠ 0 by omega)] at heuler
      simp at heuler
    by_cases hss : ss = 1
    · rw [if_pos hss]
      refine ⟨pow_mod p x ((p + 1) / 4), rfl, pow_mod_lt (by omega) _ _, ?_⟩
      have hq2 : q * 2 = p - 1 := by
        rw [hss] at ho2
        simpa using ho2
      have h4 : (p + 1) % 4 = 0 := by omega
      show pow_mod p x ((p + 1) / 4) * pow_mod p x ((p + 1) / 4) % p = x
      simp only [pow_mod_def]
      rw [pow_mod_mul_pow_mod]
      have he : (p + 1) / 4 + (p + 1) / 4 = (p - 1) / 2 + 1 := by omega
      rw [he, pow_succ]
      have h1 : x ^ ((p - 1) / 2) ≡ 1 [MOD p] := by
        show x ^ ((p - 1) / 2) % p = 1 % p
        rw [heuler, Nat.mod_eq_of_lt (by omega)]
      calc x ^ ((p - 1) / 2) * x % p = 1 * x % p := Nat.ModEq.mul_right x h1
        _ = x := by rw [one_mul, Nat.mod_eq_of_lt hx]
    · rw [if_neg hss]
      have hss2 : 2 ≤ ss := by omega
      obtain ⟨w, hw2, hwp, hwres⟩ := exists_nonresidue hp hodd
      obtain ⟨hzlt, hzres⟩ :=
        zScanGo_spec p (by omega) p 2 (by omega) ⟨w, hw2, hwp, hwres⟩ (by omega)
      set z := zScanGo p p 2 with hzdef
      rw [pow_mod_def] at hzres
      have hhalf : q * 2 ^ (ss - 1) = (p - 1) / 2 := by
        have h1 : ss - 1 + 1 = ss := by omega
        have h2 : q * 2 ^ (ss - 1) * 2 = p - 1 := by
          calc q * 2 ^ (ss - 1) * 2 = q * (2 ^ (ss - 1) * 2) := by ring
            _ = q * 2 ^ (ss - 1 + 1) := by rw [pow_succ]
            _ = p - 1 := by rw [h1]; exact ho2
        omega
      have hcinv : pow_mod p z q ^ 2 ^ (ss - 1) % p = p - 1 := by
        rw [pow_mod_def, pow_mod_pow, hhalf]
        exact hzres
      have htinv : pow_mod p x q ^ 2 ^ (ss - 1) % p = 1 := by
        rw [pow_mod_def, pow_mod_pow, hhalf]
        exact heuler
      have hrt : pow_mod p x ((q + 1) / 2) * pow_mod p x ((q + 1) / 2) % p
          = pow_mod p x q * x % p := by
        simp only [pow_mod_def]
        rw [pow_mod_mul_pow_mod]
        have he : (q + 1) / 2 + (q + 1) / 2 = q + 1 := by omega
        rw [he, pow_succ, Nat.mod_mul_mod]
      exact tsLoop_spec hp hx ss (ss + 1) (pow_mod p z q) (pow_mod p x ((q + 1) / 2))
        (pow_mod p x q) (by omega) (by omega) (pow_mod_lt (by omega) _ _)
        (pow_mod_lt (by omega) _ _) (pow_mod_lt (by omega) _ _) hrt htinv hcinv

/-- C3, witness at `p = 13`, `x = 10` (a quadratic residue). -/
theorem C3_tonelli_shanks_correct_witness :
    ∃ r, tonelli_shanks 13 10 = some (r, neg_mod 13 r) ∧ r < 13 ∧ r * r % 13 = 10 :=
  (C3_tonelli_shanks_correct 13 10 (by norm_num) (by decide) (by decide)).1.2 (by decide)
/-! ### Points and the Weierstrass curve (src/curves/point.rs, src/curves/weierstass.rs)

A `Point` holds the three `FieldElement` values of the projective
triple; the group identity is encoded as `z = 0` (`Point::is_infinity`)
and `Point::infinity` is `(0, 1, 0)`.  The affine chord-and-tangent
formulas read only `x` and `y` and produce `z = 1`.  A curve is its
pair of coefficient values `a`, `b` over the field order `p` (only `a`
enters any formula; `b` is `#[allow(unused)]` in the source). -/

structure Point where
  x : Nat
  y : Nat
  z : Nat
deriving DecidableEq, Repr

/-- `Point::infinity` (src/curves/point.rs): `(zero, one, zero)`. -/
def Point.infinity : Point := ⟨0, 1, 0⟩

/-- `impl Neg for Point` (src/curves/point.rs): negate the `y` value. -/
def pt_neg (p : Nat) (P : Point) : Point := ⟨P.x, neg_mod p P.y, P.z⟩

/-- `WeierstrassCurve::point_double` (src/curves/weierstass.rs):
tangent-slope doubling.  `three` is `FieldElement::new(field, 3)`
(unreduced, like the Rust code), the slope is `(3·x·x + a) / (y + y)` —
the division the Rust code turns into a fatal `divide by zero` abort
when `y = 0`, while this total embedding multiplies by `inv p 0 = 0` —
and the result is affine (`z = 1`). -/
def point_double (p a : Nat) (P : Point) : Point :=
  if P.z = 0 then P
  else
    let three := 3
    let slope := fdiv p (add_mod p (mul_mod p (mul_mod p three P.x) P.x) a)
      (add_mod p P.y P.y)
    let x := sub_mod p (sub_mod p (mul_mod p slope slope) P.x) P.x
    { x := x
      y := sub_mod p (sub_mod p (mul_mod p (mul_mod p three P.x) slope)
        (pow_mod p slope three)) P.y
      z := 1 }

/-- `WeierstrassCurve::point_add` (src/curves/weierstass.rs): affine
chord addition; an identity operand is returned unchanged, equal `x`
values give the identity when `y1 == -y2` and fall back to
`point_double` otherwise. -/
def point_add (p a : Nat) (P1 P2 : Point) : Point :=
  if P1.z = 0 then P2
  else if P2.z = 0 then P1
  else if P1.x = P2.x then
    if P1.y = neg_mod p P2.y then Point.infinity else point_double p a P1
  else
    let slope := fdiv p (sub_mod p P2.y P1.y) (sub_mod p P2.x P1.x)
    let x := sub_mod p (sub_mod p (mul_mod p slope slope) P1.x) P2.x
    { x := x
      y := sub_mod p (sub_mod p
        (mul_mod p (add_mod p (add_mod p P1.x P1.x) P2.x) slope)
        (pow_mod p slope 3)) P1.y
      z := 1 }

/-- `WeierstrassCurve::project_point_double` (src/curves/weierstass.rs):
homogeneous-coordinate doubling; `two` and `three` are `field.get(2)`
and `field.get(3)` (reduced). -/
def project_point_double (p a : Nat) (P : Point) : Point :=
  let two := 2 % p
  let three := 3 % p
  let xx := mul_mod p P.x P.x
  let zz := mul_mod p P.z P.z
  let w := add_mod p (mul_mod p a zz) (mul_mod p three xx)
  let s := mul_mod p (mul_mod p two P.y) P.z
  let ss := mul_mod p s s
  let sss := mul_mod p s ss
  let r := mul_mod p P.y s
  let rr := mul_mod p r r
  let b := sub_mod p (sub_mod p (mul_mod p (add_mod p P.x r) (add_mod p P.x r)) xx) rr
  let h := sub_mod p (mul_mod p w w) (mul_mod p two b)
  { x := mul_mod p h s
    y := sub_mod p (mul_mod p w (sub_mod p b h)) (mul_mod p two rr)
    z := sss }

/-- `WeierstrassCurve::project_point_add` (src/curves/weierstass.rs):
homogeneous-coordinate addition (no doubling case: equal inputs drive
`p = u2 - u1` to zero and the result's `z` to zero). -/
def project_point_add (p : Nat) (P1 P2 : Point) : Point :=
  let two := 2 % p
  let three := 3 % p
  let u1 := mul_mod p P1.x P2.z
  let u2 := mul_mod p P2.x P1.z
  let s1 := mul_mod p P1.y P2.z
  let s2 := mul_mod p P2.y P1.z
  let w := mul_mod p P1.z P2.z
  let t := sub_mod p u2 u1
  let r := sub_mod p s2 s1
  let tt := mul_mod p t t
  let ttt := mul_mod p tt t
  let rr := mul_mod p r r
  { x := mul_mod p t
      (add_mod p (mul_mod p (neg_mod p (add_mod p u1 u2)) tt) (mul_mod p w rr))
    y := fdiv p (sub_mod p
        (mul_mod p r (add_mod p (mul_mod p (mul_mod p (neg_mod p two) w) rr)
          (mul_mod p (mul_mod p three (add_mod p u1 u2)) tt)))
        (mul_mod p ttt (add_mod p s1 s2))) two
    z := mul_mod p w ttt }

/-- The loop of `WeierstrassCurve::find_order`
(src/curves/weierstass.rs): repeated projective addition of `P` until
the accumulator hits the identity, counting from `n = 2`. -/
def findOrderGo (p a : Nat) (P : Point) : Nat → Point → Nat → Nat
  | 0, _, n => n
  | fuel + 1, t, n =>
    if t.z = 0 then n else findOrderGo p a P fuel (project_point_add p t P) (n + 1)

/-- `WeierstrassCurve::find_order` (src/curves/weierstass.rs): order of
the subgroup generated by `P`; `1` for the identity, otherwise the loop
starts from `t = double(P)`, `n = 2`.  Fuel `2·p + 16` exceeds the
Hasse bound `p + 1 + 2√p` on the group order for every `p`. -/
def find_order (p a : Nat) (P : Point) : Nat :=
  if P.z = 0 then 1
  else findOrderGo p a P (2 * p + 16) (project_point_double p a P) 2

/-- The little-endian base-`2^32` digits of a scalar, as produced by
`BigUint::iter_u32_digits` (no digits for zero, no leading zero digit). -/
def u32DigitsGo : Nat → Nat → List Nat
  | 0, _ => []
  | fuel + 1, k => if k = 0 then [] else k % 4294967296 :: u32DigitsGo fuel (k / 4294967296)

def u32Digits (k : Nat) : List Nat := u32DigitsGo (k + 1) k

/-- All 32 bits of one digit, least-significant first: the order
`BitIter::from(digit).rev()` (src/utils/bit_iter.rs) yields them in
`double_and_add`. -/
def bitsLSB32 (d : Nat) : List Bool := (List.range 32).map d.testBit

/-- One iteration of the `double_and_add` bit loop
(src/curves/weierstass.rs): the accumulator pair is `(r0, r1)`; a set
bit adds `r1` into `r0`, a clear bit adds the *identity* into `r0`
(the "optional, against cache-timing attack" branch), and `r1` is
always added to itself. -/
def dnaStep (p a : Nat) (st : Point × Point) (b : Bool) : Point × Point :=
  (if b then point_add p a st.1 st.2 else point_add p a st.1 Point.infinity,
    point_add p a st.2 st.2)

/-- `WeierstrassCurve::double_and_add` (src/curves/weierstass.rs):
for each little-endian `u32` digit of `k`, fold the `dnaStep` over the
digit's 32 bits least-significant-bit first, starting from
`(identity, P)`; the answer is the final `r0`. -/
def double_and_add (p a k : Nat) (P : Point) : Point :=
  ((u32Digits k).foldl (fun st d => (bitsLSB32 d).foldl (dnaStep p a) st)
    (Point.infinity, P)).1

/-- Bit length of a word (the `skip_while(|b| b == &false)` +
`count()` over a digit's most-significant-first `BitIter`). -/
def bitLenGo : Nat → Nat → Nat
  | 0, _ => 0
  | fuel + 1, n => if n = 0 then 0 else bitLenGo fuel (n / 2) + 1

def bitLen (n : Nat) : Nat := bitLenGo n n

/-- The bit-length computation at the top of
`WeierstrassCurve::montgomery_ladder` and `miller`
(src/curves/weierstass.rs): leading-zero-trimmed length of the top
`u32` digit plus 32 per remaining digit. -/
def mlBits (order : Nat) : Nat :=
  match (u32Digits order).reverse with
  | [] => 0
  | top :: rest => bitLen top + 32 * rest.length

/-- The scalar remap of `montgomery_ladder`: `k' = 2^bits + d` where
`d = (k - 2^bits) % order` when `k > 2^bits`, else
`order - (2^bits - k) % order`. -/
def mlRemapK (k order bits : Nat) : Nat :=
  (if k > 2 ^ bits then (k - 2 ^ bits) % order
   else order - (2 ^ bits - k) % order) + 2 ^ bits

/-- One ladder iteration (src/curves/weierstass.rs): a set bit sends
`(r0, r1)` to `(r0 + r1, 2·r1)`, a clear bit to `(2·r0, r0 + r1)`,
all in projective coordinates. -/
def ladderStep (p a : Nat) (st : Point × Point) (b : Bool) : Point × Point :=
  if b then (project_point_add p st.1 st.2, project_point_double p a st.2)
  else (project_point_double p a st.1, project_point_add p st.1 st.2)

/-- `WeierstrassCurve::montgomery_ladder` (src/curves/weierstass.rs):
computes the subgroup order of `P`, remaps the scalar so its leading
bit is set, initialises `(r0, r1) = (P, 2P)` and walks the remapped
scalar's digits most-significant digit first, taking from each digit
the low `bits % 32` bits most-significant first (`skip(size - count)`)
and decreasing `bits` by that count. -/
def montgomery_ladder (p a k : Nat) (P : Point) : Point :=
  (((u32Digits (mlRemapK k (find_order p a P) (mlBits (find_order p a P)))).reverse.foldl
    (fun (acc : Nat × (Point × Point)) digit =>
      (acc.1 - acc.1 % 32,
        ((List.range (acc.1 % 32)).reverse.map digit.testBit).foldl (ladderStep p a) acc.2))
    (mlBits (find_order p a P), (P, project_point_double p a P))).2).1

/-- `WeierstrassCurve::eval_chord_tangent` (src/curves/weierstass.rs):
evaluates at `S` the chord (or tangent) through `P`, `Q` divided by the
vertical through `P + Q`.  Only `P` and `Q` are tested for the
identity; `three` is `field.get(3)` (reduced). -/
def eval_chord_tangent (p a : Nat) (P Q S : Point) : Option Nat :=
  if P.z = 0 ∨ Q.z = 0 then none
  else if P = pt_neg p Q then some (sub_mod p S.x P.x)
  else
    let slope :=
      if P.x = Q.x then
        fdiv p (add_mod p (mul_mod p (mul_mod p (3 % p) P.x) P.x) a)
          (add_mod p P.y P.y)
      else fdiv p (sub_mod p Q.y P.y) (sub_mod p Q.x P.x)
    some (fdiv p
      (sub_mod p (sub_mod p S.y P.y) (mul_mod p slope (sub_mod p S.x P.x)))
      (sub_mod p (add_mod p (add_mod p S.x P.x) Q.x) (mul_mod p slope slope)))

/-! ### Claims C4, C5, C6, C8, C10 -/

theorem sub_mod_self (p x : Nat) : sub_mod p x x = 0 := by
  unfold sub_mod
  rw [if_neg (lt_irrefl x), if_pos rfl]

theorem mul_mod_zero_right (p x : Nat) : mul_mod p x 0 = 0 := rfl

theorem neg_mod_neg_mod {p y : Nat} (hy : y < p) : neg_mod p (neg_mod p y) = y := by
  unfold neg_mod
  by_cases h : y = 0
  · simp [h]
  · rw [if_neg h, if_neg (by omega)]
    omega

/-- C4 (amended).  For every in-range point `P` (affine with reduced
coordinates, or the identity): `P + identity == P`; `P + (-P)` is the
identity (`z = 0`); and `point_double P == point_add P P` whenever `P`
is the identity or `P.y ≠ 0`.  The `P.y ≠ 0` guard is forced by the
counterexample: for an on-curve point with `y = 0`, `point_add (P, P)`
is the identity while `point_double` hits the fatal divide-by-zero
assert in Rust (junk in the total embedding). -/
theorem C4_group_law (p a : Nat) (P : Point) (hp2 : 2 ≤ p) (hodd : p % 2 = 1)
    (hy : P.y < p) (hP : P.z ≠ 0 ∨ P = Point.infinity) :
    point_add p a P Point.infinity = P ∧
    (point_add p a P (pt_neg p P)).z = 0 ∧
    (P.z = 0 ∨ P.y ≠ 0 → point_double p a P = point_add p a P P) := by
  refine ⟨?_, ?_, ?_⟩
  · rcases hP with h | h
    · rw [point_add, if_neg h]
      simp [Point.infinity]
    · rw [h, point_add]
      simp [Point.infinity]
  · by_cases hz : P.z = 0
    · rw [point_add, if_pos hz]
      exact hz
    · simp [point_add, pt_neg, hz, neg_mod_neg_mod hy, Point.infinity]
  · intro h
    by_cases hz : P.z = 0
    · rw [point_double, if_pos hz, point_add, if_pos hz]
    · have hy0 : P.y ≠ 0 := by tauto
      have hne : ¬P.y = neg_mod p P.y := by
        unfold neg_mod
        rw [if_neg hy0]
        omega
      simp [point_add, hz, hne]

/-- C4, witness at `p = 61`, `a = 9`, `P = (5, 7, 1)` (the test curve's
base point). -/
theorem C4_group_law_witness :
    point_add 61 9 ⟨5, 7, 1⟩ Point.infinity = ⟨5, 7, 1⟩ ∧
    (point_add 61 9 ⟨5, 7, 1⟩ (pt_neg 61 ⟨5, 7, 1⟩)).z = 0 ∧
    ((⟨5, 7, 1⟩ : Point).z = 0 ∨ (⟨5, 7, 1⟩ : Point).y ≠ 0 →
      point_double 61 9 ⟨5, 7, 1⟩ = point_add 61 9 ⟨5, 7, 1⟩ ⟨5, 7, 1⟩) :=
  C4_group_law 61 9 ⟨5, 7, 1⟩ (by decide) (by decide) (by decide) (Or.inl (by decide))

/-- C4, counterexample to the claim as stated: `P = (0, 0)` lies on the
curve `y² = x³ + x` over `F₅` (first conjunct), yet
`point_double P ≠ point_add P P`: the sum of a `y = 0` point with
itself is the identity while the tangent doubling divides by `2y = 0`
(a fatal abort in Rust; in this total embedding it produces the
non-identity junk point `(0, 0, 1)`). -/
theorem C4_group_law_counterexample :
    (0 * 0) % 5 = (0 * 0 * 0 + 1 * 0 + 0) % 5 ∧
    point_double 5 1 ⟨0, 0, 1⟩ ≠ point_add 5 1 ⟨0, 0, 1⟩ ⟨0, 0, 1⟩ := by decide

/-- C5.  On the curve `y² = x³ + 9x + 1` over `F₆₁` with base point
`(5, 7)`: doubling gives `(26, 50)`; `double_and_add` gives `5·base =
(30, 59)` and `142·base = (48, 26)`; and `montgomery_ladder` agrees
with both after converting projective to affine (`x/z`, `y/z`). -/
theorem C5_ladder_agrees_with_double_and_add :
    point_double 61 9 ⟨5, 7, 1⟩ = ⟨26, 50, 1⟩ ∧
    double_and_add 61 9 5 ⟨5, 7, 1⟩ = ⟨30, 59, 1⟩ ∧
    double_and_add 61 9 142 ⟨5, 7, 1⟩ = ⟨48, 26, 1⟩ ∧
    (fdiv 61 (montgomery_ladder 61 9 5 ⟨5, 7, 1⟩).x (montgomery_ladder 61 9 5 ⟨5, 7, 1⟩).z = 30 ∧
      fdiv 61 (montgomery_ladder 61 9 5 ⟨5, 7, 1⟩).y (montgomery_ladder 61 9 5 ⟨5, 7, 1⟩).z = 59) ∧
    (fdiv 61 (montgomery_ladder 61 9 142 ⟨5, 7, 1⟩).x (montgomery_ladder 61 9 142 ⟨5, 7, 1⟩).z = 48 ∧
      fdiv 61 (montgomery_ladder 61 9 142 ⟨5, 7, 1⟩).y (montgomery_ladder 61 9 142 ⟨5, 7, 1⟩).z = 26) := by
  refine ⟨by decide, by decide, by decide, ⟨by decide, by decide⟩, by decide, by decide⟩

/-- The chain `[P, 2P, …, nP]` of multiples of `P` under the affine
`point_add`, used to state that `find_order` returns the *least*
multiple hitting the identity. -/
def multiplesGo (p a : Nat) (P : Point) : Nat → Point → List Point
  | 0, _ => []
  | n + 1, acc => acc :: multiplesGo p a P n (point_add p a acc P)

def multiples (p a : Nat) (P : Point) (n : Nat) : List Point := multiplesGo p a P n P

/-- C6.  Over `y² = x³ + 30x + 34` on `F₆₃₁`: `find_order` returns 5,
5 and 130 for the three test points; each value is exactly the order of
the subgroup the point generates (the first `order - 1` multiples are
not the identity, the `order`-th is); and `double_and_add` of each
point by its order yields the identity. -/
theorem C6_find_order_subgroup :
    (find_order 631 30 ⟨36, 60, 1⟩ = 5 ∧
      (multiples 631 30 ⟨36, 60, 1⟩ 5).map Point.z = [1, 1, 1, 1, 0] ∧
      double_and_add 631 30 5 ⟨36, 60, 1⟩ = Point.infinity) ∧
    (find_order 631 30 ⟨121, 387, 1⟩ = 5 ∧
      (multiples 631 30 ⟨121, 387, 1⟩ 5).map Point.z = [1, 1, 1, 1, 0] ∧
      double_and_add 631 30 5 ⟨121, 387, 1⟩ = Point.infinity) ∧
    (find_order 631 30 ⟨0, 36, 1⟩ = 130 ∧
      (multiples 631 30 ⟨0, 36, 1⟩ 130).map Point.z = List.replicate 129 1 ++ [0] ∧
      double_and_add 631 30 130 ⟨0, 36, 1⟩ = Point.infinity) := by
  refine ⟨⟨by decide, by decide, by decide⟩, ⟨by decide, by decide, by decide⟩,
    ⟨by decide, by decide, by decide⟩⟩

/-- C8 (amended).  `eval_chord_tangent` returns `None` whenever `P` or
`Q` is the identity; the identity `S` is *not* rejected (forced by the
counterexample below — the Rust code only tests `p` and `q`). -/
theorem C8_eval_chord_tangent_identity (p a : Nat) (P Q S : Point)
    (h : P.z = 0 ∨ Q.z = 0) : eval_chord_tangent p a P Q S = none := by
  unfold eval_chord_tangent
  rw [if_pos h]

/-- C8, witness: the identity as `P` over the `F₆₁` test curve. -/
theorem C8_eval_chord_tangent_identity_witness :
    eval_chord_tangent 61 9 Point.infinity ⟨5, 7, 1⟩ ⟨26, 50, 1⟩ = none :=
  C8_eval_chord_tangent_identity 61 9 Point.infinity ⟨5, 7, 1⟩ ⟨26, 50, 1⟩ (Or.inl rfl)

/-- C8, counterexample to the claim as stated: with `P = (5,7)` and
`Q = (26,50)` on the `F₆₁` test curve and `S` the identity — which the
claim says must yield `None` — the code returns a value (it evaluates
at the identity's stored coordinates `(0, 1)`). -/
theorem C8_eval_chord_tangent_counterexample :
    eval_chord_tangent 61 9 ⟨5, 7, 1⟩ ⟨26, 50, 1⟩ Point.infinity ≠ none := by decide

/-- C10.  Projective addition of a non-identity point with itself
reports the identity: `u1 = u2` makes `p = u2 - u1 = 0`, hence
`z = w·p³ = 0` — even though the true double `2P` (computed by
`project_point_double`, second conjunct) is not the identity. -/
theorem C10_project_add_self_is_identity :
    (∀ (p : Nat) (P : Point), P.z ≠ 0 → (project_point_add p P P).z = 0) ∧
    (project_point_double 61 9 ⟨5, 7, 1⟩).z ≠ 0 := by
  constructor
  · intro p P _
    unfold project_point_add
    simp only [sub_mod_self, mul_mod_zero_right]
  · decide

/-- C10, witness at the `F₆₁` base point. -/
theorem C10_project_add_self_is_identity_witness :
    (project_point_add 61 ⟨5, 7, 1⟩ ⟨5, 7, 1⟩).z = 0 :=
  C10_project_add_self_is_identity.1 61 ⟨5, 7, 1⟩ (by decide)

/-! ### Claim C7: bit order of `double_and_add` -/

theorem u32DigitsGo_irrel :
    ∀ f1 f2 k, k < f1 → k < f2 → u32DigitsGo f1 k = u32DigitsGo f2 k := by
  intro f1
  induction f1 with
  | zero => intro f2 k h _; omega
  | succ n ih =>
    intro f2 k h1 h2
    obtain ⟨f2', rfl⟩ : ∃ f, f2 = f + 1 := ⟨f2 - 1, by omega⟩
    rw [u32DigitsGo, u32DigitsGo]
    by_cases hk : k = 0
    · rw [if_pos hk, if_pos hk]
    · rw [if_neg hk, if_neg hk]
      have hdiv : k / 4294967296 < k := Nat.div_lt_self (by omega) (by omega)
      rw [ih f2' (k / 4294967296) (by omega) (by omega)]

theorem u32Digits_cons {k : Nat} (hk : k ≠ 0) :
    u32Digits k = k % 4294967296 :: u32Digits (k / 4294967296) := by
  unfold u32Digits
  rw [u32DigitsGo, if_neg hk]
  congr 1
  have hdiv : k / 4294967296 < k := Nat.div_lt_self (by omega) (by omega)
  exact u32DigitsGo_irrel k (k / 4294967296 + 1) (k / 4294967296) (by omega) (by omega)

theorem join_digit_bits :
    ∀ k, ((u32Digits k).map bitsLSB32).flatten
      = (List.range (32 * (u32Digits k).length)).map k.testBit := by
  intro k
  induction k using Nat.strong_induction_on with
  | _ k IH =>
    by_cases hk : k = 0
    · subst hk
      rfl
    · have hdiv : k / 4294967296 < k := Nat.div_lt_self (by omega) (by omega)
      rw [u32Digits_cons hk]
      simp only [List.map_cons, List.flatten_cons, List.length_cons]
      rw [IH (k / 4294967296) hdiv]
      rw [show 32 * ((u32Digits (k / 4294967296)).length + 1)
          = 32 + 32 * (u32Digits (k / 4294967296)).length by ring]
      rw [List.range_add, List.map_append]
      congr 1
      · unfold bitsLSB32
        apply List.map_congr_left
        intro i hi
        rw [List.mem_range] at hi
        rw [show (4294967296 : Nat) = 2 ^ 32 from rfl, Nat.testBit_mod_two_pow]
        simp [hi]
      · rw [List.map_map]
        apply List.map_congr_left
        intro i _
        show (k / 4294967296).testBit i = k.testBit (32 + i)
        rw [show (4294967296 : Nat) = 2 ^ 32 from rfl, ← Nat.shiftRight_eq_div_pow,
          Nat.testBit_shiftRight]

/-- Modelled from the spec: the claim describes `double_and_add` as
"binary, most-significant-bit-first scalar multiplication", i.e. the
same per-bit step (`dnaStep`, including the zero-bit identity
addition) folded over the same bit string in most-significant-first
order. -/
def double_and_add_msb (p a k : Nat) (P : Point) : Point :=
  ((((u32Digits k).map bitsLSB32).flatten.reverse).foldl (dnaStep p a) (Point.infinity, P)).1

/-- C7 (amended).  `double_and_add` processes the scalar's bits
*least*-significant-bit first: it folds its step over
`k.testBit 0, k.testBit 1, …` (bit `i` of `k` at step `i`, padded to
whole 32-bit digits); and on every zero bit the step adds the identity
into the accumulator (while the running power is always added to
itself). -/
theorem C7_double_and_add_lsb_first (p a k : Nat) (P : Point) :
    double_and_add p a k P
      = (((List.range (32 * (u32Digits k).length)).map k.testBit).foldl (dnaStep p a)
          (Point.infinity, P)).1
    ∧ ∀ st : Point × Point, dnaStep p a st false
        = (point_add p a st.1 Point.infinity, point_add p a st.2 st.2) := by
  constructor
  · unfold double_and_add
    rw [← join_digit_bits k, List.foldl_flatten, List.foldl_map]
  · intro st
    rfl

/-- C7, counterexample to the claim as stated: on the `F₆₁` test curve
with `k = 2`, folding the very same step over the bits in
most-significant-bit-first order (the spec's description) yields `P`
itself, not `2P = (26, 50)`, so `double_and_add` is not the
most-significant-bit-first algorithm. -/
theorem C7_msb_counterexample :
    double_and_add_msb 61 9 2 ⟨5, 7, 1⟩ ≠ double_and_add 61 9 2 ⟨5, 7, 1⟩ := by decide

/-! ### Claim C9: the weilpairing auxiliary-point retry loop -/

/-- The acceptance test of `weilpairing`'s rejection-sampling loop
(src/curves/weierstass.rs): `S` must not be the identity, `P`, `-Q`,
or `P - Q`, and its subgroup order must differ from `m`. -/
def weilAccept (p a m : Nat) (P Q s : Point) : Bool :=
  !(s.z == 0) && !(s == P) && !(s == pt_neg p Q)
    && !(s == point_add p a P (pt_neg p Q)) && !(find_order p a s == m)

/-- The `loop` of `weilpairing`: draw `sampler i`, stop when it is
acceptable (returning the retry count and the point), else retry with
`i + 1`.  The loop itself has **no** iteration bound; `fuel` is only
the observation window of the embedding, and `none` means the loop is
still running after `fuel` draws. -/
def weilSampleGo (accept : Point → Bool) (sampler : Nat → Point) :
    Nat → Nat → Option (Nat × Point)
  | 0, _ => none
  | fuel + 1, i =>
    if accept (sampler i) then some (i, sampler i)
    else weilSampleGo accept sampler fuel (i + 1)

/-- The statement *after* the loop: `if i == tries { panic!(…) }` with
`tries = 100` — the abort fires only when the loop happened to accept
the draw numbered exactly 100. -/
def weilSamplePanics (accept : Point → Bool) (sampler : Nat → Point) (fuel : Nat) : Bool :=
  match weilSampleGo accept sampler fuel 0 with
  | some (i, _) => i == 100
  | none => false

/-- C9.  The rejection sampling in `weilpairing` is **not** capped: on
the order-5 configuration of the test curve (`F₆₃₁`, `a = 30`,
`P = (36,60)`, `Q = (121,387)`, `m = 5`):
(1) if no acceptable auxiliary point is ever drawn (every draw returns
`P` itself), the loop is still running after every number of
iterations — it never aborts;
(2) if the first acceptable point arrives at draw 150, far past the
`tries = 100` cap, the loop happily returns it; and
(3) the after-loop `i == tries` check does not fire then either, so no
abort happens past the cap. -/
theorem C9_sampler_is_uncapped :
    (∀ fuel i,
      weilSampleGo (weilAccept 631 30 5 ⟨36, 60, 1⟩ ⟨121, 387, 1⟩) (fun _ => ⟨36, 60, 1⟩)
        fuel i = none) ∧
    weilSampleGo (weilAccept 631 30 5 ⟨36, 60, 1⟩ ⟨121, 387, 1⟩)
      (fun j => if j < 150 then ⟨36, 60, 1⟩ else ⟨0, 36, 1⟩) 151 0
      = some (150, ⟨0, 36, 1⟩) ∧
    weilSamplePanics (weilAccept 631 30 5 ⟨36, 60, 1⟩ ⟨121, 387, 1⟩)
      (fun j => if j < 150 then ⟨36, 60, 1⟩ else ⟨0, 36, 1⟩) 151 = false := by
  refine ⟨?_, by decide, by decide⟩
  · have hP : weilAccept 631 30 5 ⟨36, 60, 1⟩ ⟨121, 387, 1⟩ ⟨36, 60, 1⟩ = false := by decide
    intro fuel
    induction fuel with
    | zero => intro i; rfl
    | succ n ih =>
      intro i
      rw [weilSampleGo]
      simp only [hP, Bool.false_eq_true, if_false]
      exact ih (i + 1)

end EllipticSpec
